import Mathlib

/-!
Shallow embedding of the training-set sampling and affine-bookkeeping core of
libMesh's rbOOmit `RBConstructionBase` / `RBSystem` (Offline reduced-basis
stage).  `Real` values of the source are modelled as exact rationals `ℚ`;
machine unsigned arithmetic is modelled on `ℕ` with explicit `% 2 ^ 32` /
`% 2 ^ 31` where wraparound matters.
-/

namespace RBVerify

/-! ## One-parameter deterministic sampling
(`RBConstructionBase::generate_training_parameters_deterministic`,
`num_params == 1`, linear branch) -/

/-- Linear step size from the source:
`Real step_size = (max_param - min_param) / std::max((unsigned int)1,(n_training_samples_in-1));`. -/
def linStepSize (minP maxP : ℚ) (n : ℕ) : ℚ :=
  (maxP - minP) / ((max 1 (n - 1) : ℕ) : ℚ)

/-- Value written at global `index` in the linear one-parameter branch:
`training_vector->set(index, index*step_size + min_param);`. -/
def detLinearSample (minP maxP : ℚ) (n : ℕ) (index : ℕ) : ℚ :=
  (index : ℚ) * linStepSize minP maxP n + minP

/-- The assembled global training sequence for one parameter, linear scaling
(each worker writes its contiguous local range; together they cover `0..n-1`). -/
def detLinearSamples (minP maxP : ℚ) (n : ℕ) : List ℚ :=
  (List.range n).map (detLinearSample minP maxP n)

/-! ## Parallel partition of the training set
(the `!serial_training_set` branch of the PARALLEL `NumericVector::init` layout
used by both `generate_training_parameters_random` and
`generate_training_parameters_deterministic`) -/

/-- Worker-local sample count:
`quotient = n/P; remainder = n%P; rank < remainder ? quotient+1 : quotient`. -/
def localSampleCount (n P r : ℕ) : ℕ :=
  if r < n % P then n / P + 1 else n / P

/-- First locally owned global index: samples are assigned contiguously in rank
order, so rank `r` starts right after the counts of all lower ranks. -/
def firstLocalIndex (n P r : ℕ) : ℕ :=
  ∑ k ∈ Finset.range r, localSampleCount n P k

/-- In serial mode (`SERIAL` init) every worker holds the full set of samples. -/
def serialLocalSampleCount (n : ℕ) : ℕ := n

lemma sum_ite_lt (q m P : ℕ) :
    ∑ k ∈ Finset.range P, (if k < m then q + 1 else q) = P * q + min m P := by
  induction P with
  | zero => simp
  | succ P ih =>
    rw [Finset.sum_range_succ, ih]
    have e : (P + 1) * q = P * q + q := by ring
    rcases lt_or_le P m with h | h
    · rw [if_pos h, e, min_eq_right h.le, min_eq_right h]
      omega
    · rw [if_neg (by omega), e, min_eq_left h,
        min_eq_left (le_trans h (Nat.le_succ P))]
      omega

/-- C1. For a valid one-parameter linear deterministic configuration
(`mu_min ≤ mu_max`, `n_samples ≥ 2`) the sampler produces the evenly spaced
sequence `sample[i] = mu_min + i*(mu_max-mu_min)/(n_samples-1)`, with
`sample[0] = mu_min`, `sample[n_samples-1] = mu_max` exactly, and strictly
increasing values when `mu_min < mu_max`. -/
theorem det_linear_sampler_spec (minP maxP : ℚ) (n : ℕ)
    (hn : 2 ≤ n) (hle : minP ≤ maxP) :
    (∀ i, i < n →
      detLinearSample minP maxP n i
        = minP + (i : ℚ) * (maxP - minP) / ((n - 1 : ℕ) : ℚ)) ∧
    detLinearSample minP maxP n 0 = minP ∧
    detLinearSample minP maxP n (n - 1) = maxP ∧
    (minP < maxP → ∀ i j, i < j → j < n →
      detLinearSample minP maxP n i < detLinearSample minP maxP n j) := by
  have hmax : max 1 (n - 1) = n - 1 := by omega
  have hne : ((n - 1 : ℕ) : ℚ) ≠ 0 := by
    have : 1 ≤ n - 1 := by omega
    exact_mod_cast Nat.one_le_iff_ne_zero.mp this
  refine ⟨?_, ?_, ?_, ?_⟩
  · intro i _
    simp only [detLinearSample, linStepSize, hmax]
    ring
  · simp [detLinearSample]
  · simp only [detLinearSample, linStepSize, hmax]
    have h2 : (2 : ℚ) ≤ (n : ℚ) := by exact_mod_cast hn
    rw [Nat.cast_sub (by omega : 1 ≤ n), Nat.cast_one]
    have hne' : (n : ℚ) - 1 ≠ 0 := by linarith
    field_simp
  · intro hlt i j hij hjn
    simp only [detLinearSample, linStepSize, hmax]
    have hstep : 0 < (maxP - minP) / ((n - 1 : ℕ) : ℚ) := by
      apply div_pos (by linarith)
      have : 1 ≤ n - 1 := by omega
      exact_mod_cast this
    have : (i : ℚ) < (j : ℚ) := by exact_mod_cast hij
    nlinarith

/-- Witness for C1 at the spec's end-to-end scenario `(mu_min, mu_max, n) = (1, 2, 4)`. -/
theorem det_linear_sampler_spec_witness :
    (∀ i, i < 4 →
      detLinearSample 1 2 4 i = 1 + (i : ℚ) * (2 - 1) / ((4 - 1 : ℕ) : ℚ)) ∧
    detLinearSample 1 2 4 0 = 1 ∧
    detLinearSample 1 2 4 (4 - 1) = 2 ∧
    ((1 : ℚ) < 2 → ∀ i j, i < j → j < 4 →
      detLinearSample 1 2 4 i < detLinearSample 1 2 4 j) :=
  det_linear_sampler_spec 1 2 4 (by norm_num) (by norm_num)

/-- C2. Non-serial partitioning: with `quotient = n/P` and `remainder = n%P`,
ranks below the remainder own `quotient+1` samples, the rest own `quotient`;
ownership ranges are contiguous in rank order and the per-worker counts sum to
`n`; in serial mode every worker holds all `n` samples. -/
theorem training_partition_spec (n P : ℕ) (hP : 0 < P) :
    (∀ r, r < n % P → localSampleCount n P r = n / P + 1) ∧
    (∀ r, n % P ≤ r → localSampleCount n P r = n / P) ∧
    (∀ r, firstLocalIndex n P (r + 1)
        = firstLocalIndex n P r + localSampleCount n P r) ∧
    (∑ r ∈ Finset.range P, localSampleCount n P r = n) ∧
    serialLocalSampleCount n = n := by
  refine ⟨?_, ?_, ?_, ?_, rfl⟩
  · intro r hr; simp [localSampleCount, hr]
  · intro r hr; simp [localSampleCount, Nat.not_lt.mpr hr]
  · intro r; simp [firstLocalIndex, Finset.sum_range_succ]
  · have hmod : n % P < P := Nat.mod_lt _ hP
    simp only [localSampleCount]
    rw [sum_ite_lt, min_eq_left hmod.le]
    exact Nat.div_add_mod n P

/-- Witness for C2 at `n = 7`, `P = 3` (counts `3, 2, 2`). -/
theorem training_partition_spec_witness :
    (∀ r, r < 7 % 3 → localSampleCount 7 3 r = 7 / 3 + 1) ∧
    (∀ r, 7 % 3 ≤ r → localSampleCount 7 3 r = 7 / 3) ∧
    (∀ r, firstLocalIndex 7 3 (r + 1)
        = firstLocalIndex 7 3 r + localSampleCount 7 3 r) ∧
    (∑ r ∈ Finset.range 3, localSampleCount 7 3 r = 7) ∧
    serialLocalSampleCount 7 = 7 :=
  training_partition_spec 7 3 (by decide)

/-! ## Max-with-location reduction
(`RBConstructionBase::get_global_max_error_pair`) -/

/-- Modelled from the spec: `Parallel::Communicator::maxloc` (the MPI
max-with-location reduction, external to src/) returns on every worker the
global maximum of the per-worker values; the accompanying location is the
lowest rank attaining that maximum (first-rank-wins tie policy).  This is the
value written back into `error_pair.second`. -/
def maxlocValue : List ℚ → ℚ
  | [] => 0
  | b :: bs => bs.foldl max b

/-- Modelled from the spec: the `proc_ID_index` produced by
`communicator.maxloc(error_pair.second, proc_ID_index)` — the lowest rank
whose value attains the global maximum. -/
def maxlocRank (bounds : List ℚ) : ℕ :=
  bounds.findIdx fun b => decide (maxlocValue bounds ≤ b)

/-- `get_global_max_error_pair`: each worker contributes its local
`(index, error bound)` candidate (`cands`, indexed by rank).  The bound is
replaced by the global maximum via `maxloc`, and the index is then broadcast
from the rank `proc_ID_index` that holds the maximum, so every worker ends up
with the winning worker's `(index, bound)` pair. -/
def get_global_max_error_pair (cands : List (ℕ × ℚ)) : ℕ × ℚ :=
  let bounds := cands.map Prod.snd
  ((cands.getD (maxlocRank bounds) (0, 0)).1, maxlocValue bounds)

lemma le_foldl_max_init (b : ℚ) (bs : List ℚ) : b ≤ bs.foldl max b := by
  induction bs generalizing b with
  | nil => simp
  | cons c cs ih => exact le_trans (le_max_left b c) (ih (max b c))

lemma le_foldl_max_of_mem {a : ℚ} {bs : List ℚ} (h : a ∈ bs) (b : ℚ) :
    a ≤ bs.foldl max b := by
  induction bs generalizing b with
  | nil => simp at h
  | cons c cs ih =>
    rcases List.mem_cons.mp h with rfl | h'
    · exact le_trans (le_max_right b a) (le_foldl_max_init _ cs)
    · exact ih h' (max b c)

lemma foldl_max_eq_or_mem (b : ℚ) (bs : List ℚ) :
    bs.foldl max b = b ∨ bs.foldl max b ∈ bs := by
  induction bs generalizing b with
  | nil => left; rfl
  | cons c cs ih =>
    rcases ih (max b c) with h | h
    · rcases max_cases b c with ⟨he, _⟩ | ⟨he, _⟩
      · left; simpa [List.foldl_cons, he] using h
      · right
        have hc : List.foldl max b (c :: cs) = c := by
          simpa [List.foldl_cons, he] using h
        rw [hc]
        exact List.mem_cons_self c cs
    · right
      exact List.mem_cons_of_mem c (by simpa [List.foldl_cons] using h)

lemma maxlocValue_mem {bounds : List ℚ} (h : bounds ≠ []) :
    maxlocValue bounds ∈ bounds := by
  match bounds with
  | b :: bs =>
    rcases foldl_max_eq_or_mem b bs with he | he
    · simp [maxlocValue, he]
    · simp [maxlocValue, he]

lemma le_maxlocValue {a : ℚ} {bounds : List ℚ} (h : a ∈ bounds) :
    a ≤ maxlocValue bounds := by
  match bounds with
  | b :: bs =>
    rcases List.mem_cons.mp h with rfl | h'
    · exact le_foldl_max_init a bs
    · exact le_foldl_max_of_mem h' b

/-- C3. When exactly one worker holds the maximum error bound,
`get_global_max_error_pair` returns that worker's `(index, bound)` pair: the
max-location reduction identifies the owning rank and the index is broadcast
from it, so the value and the index always come from the same worker. -/
theorem global_max_error_pair_spec (cands : List (ℕ × ℚ)) (r : ℕ)
    (hr : r < cands.length)
    (huniq : ∀ j (hj : j < cands.length), j ≠ r → (cands[j]).2 < (cands[r]).2) :
    get_global_max_error_pair cands = cands[r] := by
  set bounds := cands.map Prod.snd with hb
  have hlen : bounds.length = cands.length := by simp [hb]
  have hrb : r < bounds.length := by omega
  have hget : ∀ j (hj : j < cands.length), bounds[j] = (cands[j]).2 := by
    intro j hj; simp [hb]
  -- the global maximum is the unique maximiser's bound
  have hmax : maxlocValue bounds = bounds[r] := by
    have hmem : maxlocValue bounds ∈ bounds :=
      maxlocValue_mem (by intro hnil; rw [hnil] at hrb; simp at hrb)
    obtain ⟨j, hj, hje⟩ := List.mem_iff_getElem.mp hmem
    by_cases hjr : j = r
    · subst hjr
      exact hje.symm
    · exfalso
      have h1 : bounds[j] < bounds[r] := by
        rw [hget j (by omega), hget r hr]
        exact huniq j (by omega) hjr
      have h2 : bounds[r] ≤ maxlocValue bounds :=
        le_maxlocValue (List.getElem_mem hrb)
      rw [← hje] at h2
      exact absurd h2 (not_le.mpr h1)
  -- the reduction reports the unique maximiser's rank
  have hrank : maxlocRank bounds = r := by
    unfold maxlocRank
    rw [List.findIdx_eq hrb]
    constructor
    · simp [hmax]
    · intro j hji
      have hj : j < bounds.length := by omega
      have : bounds[j] < maxlocValue bounds := by
        rw [hmax, hget j (by omega), hget r hr]
        exact huniq j (by omega) (by omega)
      simp only [decide_eq_false_iff_not, not_le]
      exact this
  have hgetD : cands.getD (maxlocRank bounds) (0, 0) = cands[r] := by
    rw [hrank]
    simp [List.getD_eq_getElem?_getD, List.getElem?_eq_getElem hr]
  calc get_global_max_error_pair cands
      = ((cands.getD (maxlocRank bounds) (0, 0)).1, maxlocValue bounds) := rfl
    _ = ((cands[r]).1, (cands[r]).2) := by rw [hgetD, hmax, hget r hr]
    _ = cands[r] := rfl

/-- Witness for C3: three workers with candidates `(5, 2), (7, 9), (2, 4)`;
rank 1 uniquely holds the maximum bound, so everyone gets `(7, 9)`. -/
theorem global_max_error_pair_spec_witness :
    get_global_max_error_pair [(5, (2 : ℚ)), (7, 9), (2, 4)] = (7, 9) :=
  global_max_error_pair_spec [(5, (2 : ℚ)), (7, 9), (2, 4)] 1
    (by decide) (by decide)

/-! ## Two-parameter deterministic sampling
(`generate_training_parameters_deterministic`, `num_params == 2` branch) -/

/-- The error message raised when `n_training_samples_in` is not a perfect
square in the two-parameter deterministic branch. -/
def squareErrorMsg : String :=
  "Deterministic training set generation with two parameters requires the number of training parameters to be a perfect square."

/-- Per-variable linear grid row of `training_parameters_matrix`:
`training_parameters_matrix[i][j] = j*step_size + min_param` with
`step_size = (max_param - min_param) / std::max(1u, k-1)` for
`k = n_training_parameters_per_var` grid points. -/
def linGridValue (minP maxP : ℚ) (k j : ℕ) : ℚ :=
  (j : ℚ) * ((maxP - minP) / ((max 1 (k - 1) : ℕ) : ℚ)) + minP

/-- Two-parameter deterministic generation, abstracted over the per-variable
grid rows `grid0`/`grid1` (= `training_parameters_matrix[0]`/`[1]`, e.g.
`linGridValue` for linear scaling).  The source first checks that
`k = (unsigned)sqrt(n)` satisfies `k*k == n` and raises `libmesh_error_msg`
otherwise — before the matrix is filled or any sample value is written; on
success the double loop over `(index1, index2)` writes
`training_vector_0[index1*k+index2] = matrix[0][index1]` and
`training_vector_1[index1*k+index2] = matrix[1][index2]`, each global index
being written exactly once by its owning worker; we model the assembled global
vectors, recovering `index1 = index / k`, `index2 = index % k`. -/
def detGrid2 (grid0 grid1 : ℕ → ℚ) (n : ℕ) : Except String (List ℚ × List ℚ) :=
  let k := Nat.sqrt n
  if k * k ≠ n then
    .error squareErrorMsg
  else
    .ok ((List.range n).map fun index => grid0 (index / k),
         (List.range n).map fun index => grid1 (index % k))

/-- C4. Two-parameter deterministic generation fails (with the configuration
error, writing no sample values) when `n_samples` is not a perfect square; for
`n_samples = k*k` it produces the `k×k` Cartesian grid in row-major order: at
global index `i1*k + i2` the first parameter takes its `i1`-th grid value and
the second its `i2`-th grid value. -/
theorem det_two_param_grid_spec (grid0 grid1 : ℕ → ℚ) (n k : ℕ) :
    (Nat.sqrt n * Nat.sqrt n ≠ n →
      detGrid2 grid0 grid1 n = .error squareErrorMsg) ∧
    (∀ i1 i2 : ℕ, i1 < k → i2 < k →
      ∃ v0 v1, detGrid2 grid0 grid1 (k * k) = .ok (v0, v1) ∧
        v0.getD (i1 * k + i2) 0 = grid0 i1 ∧
        v1.getD (i1 * k + i2) 0 = grid1 i2) := by
  constructor
  · intro hns
    simp [detGrid2, hns]
  · intro i1 i2 h1 h2
    have hk : 0 < k := by omega
    have hsq : Nat.sqrt (k * k) = k := Nat.sqrt_eq k
    have hlt : i1 * k + i2 < k * k := by
      calc i1 * k + i2 < i1 * k + k := by omega
        _ = (i1 + 1) * k := by ring
        _ ≤ k * k := by
            apply Nat.mul_le_mul_right
            omega
    refine ⟨(List.range (k * k)).map fun index => grid0 (index / k),
            (List.range (k * k)).map fun index => grid1 (index % k), ?_, ?_, ?_⟩
    · simp [detGrid2, hsq]
    · have hdiv : (i1 * k + i2) / k = i1 := by
        rw [Nat.add_comm, Nat.add_mul_div_right _ _ hk, Nat.div_eq_of_lt h2]
        omega
      simp [hsq, List.getD_eq_getElem?_getD, List.getElem?_map,
        List.getElem?_range hlt, hdiv]
    · have hmod : (i1 * k + i2) % k = i2 := by
        rw [Nat.add_comm, Nat.add_mul_mod_self_right, Nat.mod_eq_of_lt h2]
      simp [hsq, List.getD_eq_getElem?_getD, List.getElem?_map,
        List.getElem?_range hlt, hmod]

/-- Witness for C4: `n = 5` is rejected; for `k = 2` (`n = 4`) the entry at
global index `1*2 + 0` pairs grid value 1 of the first parameter with grid
value 0 of the second. -/
theorem det_two_param_grid_spec_witness :
    (detGrid2 (linGridValue 0 1 2) (linGridValue 10 20 2) 5
        = .error squareErrorMsg) ∧
    (∃ v0 v1, detGrid2 (linGridValue 0 1 2) (linGridValue 10 20 2) (2 * 2)
        = .ok (v0, v1) ∧
      v0.getD (1 * 2 + 0) 0 = linGridValue 0 1 2 1 ∧
      v1.getD (1 * 2 + 0) 0 = linGridValue 10 20 2 0) :=
  ⟨(det_two_param_grid_spec (linGridValue 0 1 2) (linGridValue 10 20 2) 5 2).1
      (by
        have hlo : 2 ≤ Nat.sqrt 5 := Nat.le_sqrt.mpr (by omega)
        have hhi : Nat.sqrt 5 < 3 := Nat.sqrt_lt.mpr (by omega)
        have h5 : Nat.sqrt 5 = 2 := by omega
        rw [h5]
        decide),
   (det_two_param_grid_spec (linGridValue 0 1 2) (linGridValue 10 20 2) 5 2).2
      1 0 (by decide) (by decide)⟩

/-! ## Loading and reading the training set
(`RBConstructionBase::load_training_set`,
`RBConstructionBase::get_params_from_training_set`) -/

/-- One worker's view of `training_parameters`: the initialization flag, the
first locally owned global index of the distributed vectors, and the ordered
map from parameter name to this worker's local shard of the per-parameter
sample sequence.  The invariant that the map's key set equals the declared
parameter names makes `entries.length` stand for `get_n_params()`. -/
structure WorkerTrainingSet where
  initialized : Bool
  firstLocal : ℕ
  entries : List (String × List ℚ)
  deriving DecidableEq

/-- `new_training_set[param_name]` read through `std::map::operator[]`:
a missing key yields a default-constructed (empty) vector. -/
def mapIndex (m : List (String × List ℚ)) (name : String) : List ℚ :=
  match m.find? fun p => p.1 == name with
  | some p => p.2
  | none => []

/-- The failure modes of `load_training_set`.  The first two are
`libmesh_error_msg` calls in the source; `outOfBounds` models reading past the
end of a supplied `std::vector` (out-of-range access, undefined behavior in
C++), which happens when a supplied vector is missing or shorter than the
local sample count. -/
inductive LoadError where
  | notInitialized
  | wrongParamCount
  | outOfBounds
  deriving DecidableEq

/-- `n_local_training_samples = new_training_set.begin()->second.size()`. -/
def suppliedLocalCount (new : List (String × List ℚ)) : ℕ :=
  match new with
  | [] => 0
  | p :: _ => p.2.length

/-- The copy loop of `load_training_set`: for each existing key `param_name`,
`training_vector->set(first_index + i, new_training_set[param_name][i])` for
`i < n_local_training_samples`. -/
def copyTrainingValues (new : List (String × List ℚ)) (nLocal : ℕ) :
    List (String × List ℚ) → Except LoadError (List (String × List ℚ))
  | [] => .ok []
  | p :: rest =>
    let vals := mapIndex new p.1
    if nLocal ≤ vals.length then
      match copyTrainingValues new nLocal rest with
      | .ok r => .ok ((p.1, vals.take nLocal) :: r)
      | .error e => .error e
    else .error .outOfBounds

/-- `load_training_set(new_training_set)` on one worker.  It requires prior
initialization, then checks only `new_training_set.size() != get_n_params()`
(the parameter count, not the key set), then rebuilds every existing key's
vector (PARALLEL layout; `newFirstLocal` is the first local index the
collective `init` assigns this worker, i.e. the sum of the preceding workers'
local counts) and copies the supplied local values in. -/
def load_training_set (st : WorkerTrainingSet) (newFirstLocal : ℕ)
    (new : List (String × List ℚ)) : Except LoadError WorkerTrainingSet :=
  if st.initialized = false then .error .notInitialized
  else if new.length ≠ st.entries.length then .error .wrongParamCount
  else
    match copyTrainingValues new (suppliedLocalCount new) st.entries with
    | .ok e => .ok ⟨true, newFirstLocal, e⟩
    | .error err => .error err

/-- `this->comm().sum(n_global_training_samples)`: the number of globally
distributed samples is the sum of the worker-local counts. -/
def globalTrainingSamples (workers : List (List (String × List ℚ))) : ℕ :=
  (workers.map suppliedLocalCount).sum

/-- `get_local_n_training_samples() = training_parameters.begin()->second->local_size()`. -/
def localTrainingSize (st : WorkerTrainingSet) : ℕ :=
  match st.entries with
  | [] => 0
  | p :: _ => p.2.length

/-- `get_params_from_training_set(index)`: asserts initialization and that
`index` lies in `[first_local, last_local)`, then returns the parameter map
read from every training vector at that global index. -/
def get_params_from_training_set (st : WorkerTrainingSet) (index : ℕ) :
    Except String (List (String × ℚ)) :=
  if st.initialized = false then
    .error "assertion: training_parameters_initialized"
  else if st.firstLocal ≤ index ∧ index < st.firstLocal + localTrainingSize st then
    .ok (st.entries.map fun p => (p.1, p.2.getD (index - st.firstLocal) 0))
  else
    .error "assertion: index in local range"

lemma copyTrainingValues_ok {new : List (String × List ℚ)} {nLocal : ℕ}
    {entries r : List (String × List ℚ)}
    (h : copyTrainingValues new nLocal entries = .ok r) :
    r = entries.map fun p => (p.1, (mapIndex new p.1).take nLocal) := by
  induction entries generalizing r with
  | nil =>
    simp only [copyTrainingValues, Except.ok.injEq] at h
    subst h
    rfl
  | cons p rest ih =>
    simp only [copyTrainingValues] at h
    by_cases hle : nLocal ≤ (mapIndex new p.1).length
    · rw [if_pos hle] at h
      cases hrest : copyTrainingValues new nLocal rest with
      | ok rr =>
        rw [hrest] at h
        simp only [Except.ok.injEq] at h
        subst h
        simp [List.map_cons, ih hrest]
      | error e =>
        rw [hrest] at h
        cases h
    · rw [if_neg hle] at h
      cases h

lemma copyTrainingValues_ok_le {new : List (String × List ℚ)} {nLocal : ℕ}
    {entries r : List (String × List ℚ)}
    (h : copyTrainingValues new nLocal entries = .ok r) :
    ∀ p ∈ entries, nLocal ≤ (mapIndex new p.1).length := by
  induction entries generalizing r with
  | nil => intro p hp; simp at hp
  | cons q rest ih =>
    intro p hp
    simp only [copyTrainingValues] at h
    by_cases hle : nLocal ≤ (mapIndex new q.1).length
    · rw [if_pos hle] at h
      cases hrest : copyTrainingValues new nLocal rest with
      | ok rr =>
        rcases List.mem_cons.mp hp with rfl | hp'
        · exact hle
        · exact ih hrest p hp'
      | error e =>
        rw [hrest] at h
        cases h
    · rw [if_neg hle] at h
      cases h

lemma load_training_set_ok {st : WorkerTrainingSet} {f : ℕ}
    {new : List (String × List ℚ)} {st' : WorkerTrainingSet}
    (h : load_training_set st f new = .ok st') :
    st.initialized = true ∧ new.length = st.entries.length ∧
    st'.initialized = true ∧ st'.firstLocal = f ∧
    st'.entries = (st.entries.map
      fun p => (p.1, (mapIndex new p.1).take (suppliedLocalCount new))) ∧
    ∀ p ∈ st.entries, suppliedLocalCount new ≤ (mapIndex new p.1).length := by
  by_cases hinit : st.initialized = false
  · simp [load_training_set, hinit] at h
  · by_cases hlen : new.length = st.entries.length
    · simp only [load_training_set] at h
      rw [if_neg hinit, if_neg (by omega : ¬ new.length ≠ st.entries.length)] at h
      cases hc : copyTrainingValues new (suppliedLocalCount new) st.entries with
      | ok e =>
        rw [hc] at h
        simp only [Except.ok.injEq] at h
        subst h
        exact ⟨by simpa using hinit, hlen, rfl, rfl,
          copyTrainingValues_ok hc, copyTrainingValues_ok_le hc⟩
      | error e =>
        rw [hc] at h
        simp at h
    · simp [load_training_set, hinit, hlen] at h

/-- Counterexample to C5's name-set clause: an initialized training set with
the single parameter name "a" accepts (returns success, no error of any kind)
a supplied map for the different name "b" with matching parameter count and
zero local samples — the source checks only the count, never the key set. -/
theorem load_training_set_name_mismatch_counterexample :
    (load_training_set ⟨true, 0, [("a", [1, 2])]⟩ 0 [("b", [])]).isOk = true ∧
    ("b" ∈ ([("a", [(1 : ℚ), 2])] : List (String × List ℚ)).map Prod.fst) = False := by
  constructor
  · rfl
  · simp

/-- C5 (amended). `load_training_set` fails without prior initialization and
fails when the supplied parameter *count* differs from the existing one (a
name-set mismatch with matching count is not rejected); on success it
preserves the existing parameter-name keys, every replaced sequence has the
supplied local length, and the global sample count is the sum over all
workers of their local counts. -/
theorem load_training_set_spec (st : WorkerTrainingSet) (f : ℕ)
    (new : List (String × List ℚ)) :
    (st.initialized = false → load_training_set st f new = .error .notInitialized) ∧
    (new.length ≠ st.entries.length → st.initialized = true →
      load_training_set st f new = .error .wrongParamCount) ∧
    (∀ st', load_training_set st f new = .ok st' →
      st'.entries.map Prod.fst = st.entries.map Prod.fst ∧
      ∀ p ∈ st'.entries, p.2.length = suppliedLocalCount new) ∧
    (∀ workers : List (List (String × List ℚ)),
      globalTrainingSamples workers = (workers.map suppliedLocalCount).sum) := by
  refine ⟨?_, ?_, ?_, fun _ => rfl⟩
  · intro hinit
    simp [load_training_set, hinit]
  · intro hlen hinit
    simp [load_training_set, hinit, hlen]
  · intro st' h
    obtain ⟨_, _, _, _, hentries, hle⟩ := load_training_set_ok h
    constructor
    · rw [hentries, List.map_map]
      rfl
    · intro p hp
      rw [hentries] at hp
      obtain ⟨q, hq, rfl⟩ := List.mem_map.mp hp
      simp only [List.length_take]
      exact min_eq_left (hle q hq)

/-- Witness for C5 at concrete inputs: an uninitialized set is rejected, a
count mismatch is rejected, and a successful load preserves the key "a" and
the supplied local length 2. -/
theorem load_training_set_spec_witness :
    load_training_set ⟨false, 0, [("a", [1])]⟩ 0 [("a", [2])]
        = .error .notInitialized ∧
    load_training_set ⟨true, 0, [("a", [1])]⟩ 0 [] = .error .wrongParamCount ∧
    (∀ st', load_training_set ⟨true, 0, [("a", [1])]⟩ 3 [("a", [5, 7])] = .ok st' →
      st'.entries.map Prod.fst
          = ([("a", [(1 : ℚ)])] : List (String × List ℚ)).map Prod.fst ∧
      ∀ p ∈ st'.entries, p.2.length = suppliedLocalCount [("a", [(5 : ℚ), 7])]) :=
  ⟨(load_training_set_spec ⟨false, 0, [("a", [1])]⟩ 0 [("a", [2])]).1 rfl,
   (load_training_set_spec ⟨true, 0, [("a", [1])]⟩ 0 []).2.1 (by simp) rfl,
   (load_training_set_spec ⟨true, 0, [("a", [1])]⟩ 3 [("a", [5, 7])]).2.2.1⟩

/-- C6. After a successful `load_training_set`, reading back every locally
owned offset `i` via `get_params_from_training_set(first_local + i)` returns
the parameter vector whose value for each parameter name is exactly the
`i`-th supplied local value for that name. -/
theorem load_then_get_roundtrip (st : WorkerTrainingSet) (f : ℕ)
    (new : List (String × List ℚ)) (st' : WorkerTrainingSet)
    (hload : load_training_set st f new = .ok st')
    (i : ℕ) (hi : i < suppliedLocalCount new) :
    get_params_from_training_set st' (f + i)
      = .ok (st.entries.map fun p => (p.1, (mapIndex new p.1).getD i 0)) := by
  obtain ⟨hinit, hlen, hinit', hfirst, hentries, hle⟩ := load_training_set_ok hload
  -- the local size after the load is the supplied local count
  have hsize : localTrainingSize st' = suppliedLocalCount new := by
    rw [localTrainingSize, hentries]
    cases hst : st.entries with
    | nil =>
      exfalso
      rw [hst] at hlen
      have : new = [] := List.length_eq_zero.mp (by simpa using hlen)
      rw [this] at hi
      simp [suppliedLocalCount] at hi
    | cons q qs =>
      simp only [List.map_cons, List.length_take]
      exact min_eq_left (hle q (by rw [hst]; exact List.mem_cons_self q qs))
  have htake : ∀ (l : List ℚ), suppliedLocalCount new ≤ l.length →
      (l.take (suppliedLocalCount new)).getD i 0 = l.getD i 0 := by
    intro l _
    simp only [List.getD_eq_getElem?_getD]
    rw [List.getElem?_take, if_pos hi]
  rw [get_params_from_training_set, if_neg (by simp [hinit']),
    if_pos (by constructor <;> omega), hentries, hfirst]
  simp only [List.map_map, Nat.add_sub_cancel_left]
  congr 1
  refine List.map_congr_left ?_
  intro p hp
  simp only [Function.comp]
  rw [htake _ (hle p hp)]

/-- Witness for C6: loading `a ↦ [5,7], b ↦ [9,11]` with first local index 3
and reading back offset 1 (global index 4) returns `a = 7, b = 11`. -/
theorem load_then_get_roundtrip_witness :
    get_params_from_training_set ⟨true, 3, [("a", [5, 7]), ("b", [9, 11])]⟩ (3 + 1)
      = .ok ((([("a", [(0 : ℚ)]), ("b", [0])] : List (String × List ℚ))).map
          fun p => (p.1, (mapIndex [("a", [5, 7]), ("b", [9, 11])] p.1).getD 1 0)) :=
  load_then_get_roundtrip ⟨true, 0, [("a", [0]), ("b", [0])]⟩ 3
    [("a", [5, 7]), ("b", [9, 11])] ⟨true, 3, [("a", [5, 7]), ("b", [9, 11])]⟩
    (by rfl) 1 (by decide)

/-! ## Random training-set generation: seeding and rank dependence
(`generate_training_parameters_random`, caller-supplied nonnegative seed) -/

/-- Linear congruential engine modelling the C library `std::rand` stream: the
state is the last 31-bit value produced, `RAND_MAX = 2^31 - 1`. -/
def lcgNext (s : ℕ) : ℕ := (1103515245 * s + 12345) % 2 ^ 31

/-- `RAND_MAX` of the modelled generator. -/
def randMax : ℕ := 2 ^ 31 - 1

/-- The `i`-th `std::rand()` output after `std::srand(seed)`. -/
def randSeq (seed : ℕ) : ℕ → ℕ
  | 0 => lcgNext seed
  | n + 1 => lcgNext (randSeq seed n)

/-- Seed selection for a caller-supplied nonnegative seed
(`training_parameters_random_seed >= 0` branch): in serial mode
`std::srand(static_cast<unsigned>(training_parameters_random_seed))`, the same
on all ranks; otherwise
`std::srand(static_cast<unsigned>(training_parameters_random_seed*(1+communicator.rank())))`,
the `int` product cast to unsigned, i.e. taken mod `2^32`. -/
def trainingSeed (s rank : ℕ) (serial : Bool) : ℕ :=
  if serial then s % 2 ^ 32 else s * (1 + rank) % 2 ^ 32

/-- Linearly scaled random sample:
`training_vector->set(index, random_number*(max-min) + min)` with
`random_number = rand()/RAND_MAX ∈ [0,1]`. -/
def randomLinearSample (minP maxP : ℚ) (r : ℕ) : ℚ :=
  (r : ℚ) / (randMax : ℚ) * (maxP - minP) + minP

/-- The sequence of linearly scaled samples a worker writes into its range,
drawn from its own seeded `std::rand` stream. -/
def generateRandomLinear (minP maxP : ℚ) (seed count : ℕ) : List ℚ :=
  (List.range count).map fun i => randomLinearSample minP maxP (randSeq seed i)

lemma lcgNext_injOn {s1 s2 : ℕ} (h : lcgNext s1 = lcgNext s2) :
    s1 % 2 ^ 31 = s2 % 2 ^ 31 := by
  have hmod : (1103515245 * s1 + 12345) % 2 ^ 31
      = (1103515245 * s2 + 12345) % 2 ^ 31 := h
  have hcop : Nat.gcd (2 ^ 31) 1103515245 = 1 := by decide
  have h1 : 1103515245 * s1 + 12345 ≡ 1103515245 * s2 + 12345 [MOD 2 ^ 31] := hmod
  have h2 : 1103515245 * s1 ≡ 1103515245 * s2 [MOD 2 ^ 31] :=
    Nat.ModEq.add_right_cancel' 12345 h1
  exact Nat.ModEq.cancel_left_of_coprime hcop h2

lemma randSeq_zero_ne {s1 s2 : ℕ} (h : s1 % 2 ^ 31 ≠ s2 % 2 ^ 31) :
    randSeq s1 0 ≠ randSeq s2 0 :=
  fun he => h (lcgNext_injOn he)

/-- C7 (amended). With a caller-supplied nonnegative seed: in serial mode the
engine seed is rank-independent, so every (simulated) worker rank produces the
identical full sample sequence; in non-serial mode the seed used by rank `r`
is the base seed multiplied by `(1+r)` (cast to unsigned, mod `2^32`), and
whenever two ranks' resulting seeds differ modulo the generator modulus
`2^31` — which fails e.g. for base seed 0 — they produce different sample
sequences over a nondegenerate linear range. -/
theorem random_training_seed_spec (s r1 r2 count : ℕ) (minP maxP : ℚ) :
    (generateRandomLinear minP maxP (trainingSeed s r1 true) count
      = generateRandomLinear minP maxP (trainingSeed s r2 true) count) ∧
    (trainingSeed s r1 false = s * (1 + r1) % 2 ^ 32) ∧
    (trainingSeed s r1 false % 2 ^ 31 ≠ trainingSeed s r2 false % 2 ^ 31 →
      minP < maxP → 0 < count →
      generateRandomLinear minP maxP (trainingSeed s r1 false) count
        ≠ generateRandomLinear minP maxP (trainingSeed s r2 false) count) := by
  refine ⟨rfl, rfl, ?_⟩
  intro hseed hlt hcount heq
  -- equal sequences force equal first samples, hence equal first rand outputs
  have h0 : randomLinearSample minP maxP (randSeq (trainingSeed s r1 false) 0)
      = randomLinearSample minP maxP (randSeq (trainingSeed s r2 false) 0) := by
    have := congrArg (fun l => l.getD 0 0) heq
    simpa [generateRandomLinear, List.getD_eq_getElem?_getD,
      List.getElem?_map, List.getElem?_range hcount] using this
  have hrm : (0 : ℚ) < (randMax : ℚ) := by norm_num [randMax]
  have hr : (randSeq (trainingSeed s r1 false) 0 : ℚ)
      = (randSeq (trainingSeed s r2 false) 0 : ℚ) := by
    have hd : (maxP - minP) ≠ 0 := by linarith
    have := h0
    unfold randomLinearSample at this
    field_simp at this
    rcases this with h | h
    · exact_mod_cast h
    · exact absurd h hd
  have : randSeq (trainingSeed s r1 false) 0 = randSeq (trainingSeed s r2 false) 0 := by
    exact_mod_cast hr
  exact randSeq_zero_ne hseed this

/-- Counterexample to C7 as stated: with caller-supplied seed 0 and
`serial_training_set = false`, ranks 0 and 1 receive the *same* engine seed
(`0*(1+r) = 0`) and produce identical sample sequences. -/
theorem random_training_seed_zero_counterexample :
    trainingSeed 0 0 false = trainingSeed 0 1 false ∧
    generateRandomLinear 0 1 (trainingSeed 0 0 false) 3
      = generateRandomLinear 0 1 (trainingSeed 0 1 false) 3 := by
  exact ⟨rfl, rfl⟩

/-- Witness for C7 (amended) at base seed 1, ranks 0 and 1, one sample on
`[0, 1]`: the seeds 1 and 2 differ mod `2^31` and the sequences differ. -/
theorem random_training_seed_spec_witness :
    (generateRandomLinear 0 1 (trainingSeed 1 0 true) 1
      = generateRandomLinear 0 1 (trainingSeed 1 1 true) 1) ∧
    (trainingSeed 1 0 false = 1 * (1 + 0) % 2 ^ 32) ∧
    (generateRandomLinear 0 1 (trainingSeed 1 0 false) 1
      ≠ generateRandomLinear 0 1 (trainingSeed 1 1 false) 1) :=
  ⟨(random_training_seed_spec 1 0 1 1 0 1).1,
   (random_training_seed_spec 1 0 1 1 0 1).2.1,
   (random_training_seed_spec 1 0 1 1 0 1).2.2 (by decide) (by norm_num) (by decide)⟩

/-! ## Discrete snapping
(the tail of `RBConstructionBase::initialize_training_parameters`) -/

/-- Modelled from the spec: `RBParametrized::get_closest_value` (not in src/)
returns the element of `discrete_values` closest to `value` by absolute
difference, an earlier list element winning ties; behaviour on an empty
candidate list is unspecified (here: the value itself). -/
def get_closest_value (v : ℚ) : List ℚ → ℚ
  | [] => v
  | x :: xs => xs.foldl (fun best y => if |v - y| < |v - best| then y else best) x

/-- The snapping loop over one training vector: global indices in the calling
worker's owned range `[first_local, last_local)` are replaced by
`get_closest_value`; all other indices are untouched.  `i` is the global index
of the head of `v`. -/
def snapVectorFrom (f : ℚ → ℚ) (first last : ℕ) : ℕ → List ℚ → List ℚ
  | _, [] => []
  | i, x :: xs =>
    (if first ≤ i ∧ i < last then f x else x) :: snapVectorFrom f first last (i + 1) xs

/-- One worker's snapping pass over a global training vector. -/
def snapVector (f : ℚ → ℚ) (first last : ℕ) (v : List ℚ) : List ℚ :=
  snapVectorFrom f first last 0 v

/-- The discrete-snapping pass at the end of `initialize_training_parameters`:
guarded by `get_n_discrete_params() > 0`, it walks the parameter map and, for
each parameter with `is_discrete_parameter`, snaps every locally owned entry
of its training vector to the nearest allowed discrete value. -/
def snapPass (nDiscrete : ℕ) (isDiscrete : String → Bool)
    (discreteValues : String → List ℚ) (first last : ℕ)
    (tp : List (String × List ℚ)) : List (String × List ℚ) :=
  if 0 < nDiscrete then
    tp.map fun p =>
      if isDiscrete p.1 then
        (p.1, snapVector (fun x => get_closest_value x (discreteValues p.1)) first last p.2)
      else p
  else tp

lemma get_closest_value_foldl_fix (v : ℚ) (xs : List ℚ) :
    xs.foldl (fun best y => if |v - y| < |v - best| then y else best) v = v := by
  induction xs with
  | nil => rfl
  | cons y ys ih =>
    rw [List.foldl_cons]
    have hstep : (if |v - y| < |v - v| then y else v) = v := by
      rw [if_neg]
      simp only [sub_self, abs_zero, not_lt]
      exact abs_nonneg _
    rw [hstep]
    exact ih

lemma get_closest_value_step_self (v b : ℚ) :
    (if |v - v| < |v - b| then v else b) = v := by
  by_cases hb : |v - v| < |v - b|
  · rw [if_pos hb]
  · rw [if_neg hb]
    simp only [sub_self, abs_zero, not_lt] at hb
    have h0 : |v - b| = 0 := le_antisymm hb (abs_nonneg _)
    have : v - b = 0 := abs_eq_zero.mp h0
    linarith

lemma get_closest_value_foldl_of_mem {v : ℚ} {xs : List ℚ} (h : v ∈ xs) (b : ℚ) :
    xs.foldl (fun best y => if |v - y| < |v - best| then y else best) b = v := by
  induction xs generalizing b with
  | nil => simp at h
  | cons y ys ih =>
    rcases List.mem_cons.mp h with rfl | h'
    · rw [List.foldl_cons, get_closest_value_step_self]
      exact get_closest_value_foldl_fix v ys
    · rw [List.foldl_cons]
      exact ih h' _

lemma get_closest_value_of_mem {v : ℚ} {l : List ℚ} (h : v ∈ l) :
    get_closest_value v l = v := by
  match l with
  | x :: xs =>
    rcases List.mem_cons.mp h with rfl | h'
    · exact get_closest_value_foldl_fix v xs
    · exact get_closest_value_foldl_of_mem h' x

lemma snapVectorFrom_fix {f : ℚ → ℚ} {v : List ℚ} (hf : ∀ x ∈ v, f x = x)
    (first last i : ℕ) : snapVectorFrom f first last i v = v := by
  induction v generalizing i with
  | nil => rfl
  | cons x xs ih =>
    rw [snapVectorFrom]
    have hx : f x = x := hf x (List.mem_cons_self x xs)
    have : (if first ≤ i ∧ i < last then f x else x) = x := by
      split <;> simp [hx]
    rw [this, ih fun y hy => hf y (List.mem_cons_of_mem x hy)]

/-- C8. Discrete snapping is idempotent: a value already in the discrete list
snaps to itself (nearest by absolute difference, earlier element on ties), and
the whole snapping pass leaves a training set unchanged when every value of
every discrete parameter already lies in that parameter's discrete list. -/
theorem discrete_snapping_idempotent (nDiscrete : ℕ) (isDiscrete : String → Bool)
    (discreteValues : String → List ℚ) (first last : ℕ)
    (tp : List (String × List ℚ))
    (halready : ∀ p ∈ tp, isDiscrete p.1 = true → ∀ x ∈ p.2, x ∈ discreteValues p.1) :
    (∀ name v, v ∈ discreteValues name → get_closest_value v (discreteValues name) = v) ∧
    snapPass nDiscrete isDiscrete discreteValues first last tp = tp := by
  constructor
  · intro name v hv
    exact get_closest_value_of_mem hv
  · rw [snapPass]
    split
    · conv_rhs => rw [← List.map_id tp]
      refine List.map_congr_left ?_
      intro p hp
      by_cases hd : isDiscrete p.1
      · rw [if_pos hd, snapVector,
          snapVectorFrom_fix (fun x hx => get_closest_value_of_mem (halready p hp hd x hx))]
        rfl
      · rw [if_neg hd]
        rfl
    · rfl

/-- Witness for C8: with discrete list `[1, 3, 6]` for parameter "a", the
already-discrete training set `a ↦ [3, 1]` is left unchanged, and `3` snaps
to itself. -/
theorem discrete_snapping_idempotent_witness :
    (∀ name v,
      v ∈ (fun _ : String => [(1 : ℚ), 3, 6]) name →
      get_closest_value v ((fun _ : String => [(1 : ℚ), 3, 6]) name) = v) ∧
    snapPass 1 (fun _ => true) (fun _ => [(1 : ℚ), 3, 6]) 0 2 [("a", [3, 1])]
      = [("a", [3, 1])] :=
  discrete_snapping_idempotent 1 (fun _ => true) (fun _ => [(1 : ℚ), 3, 6]) 0 2
    [("a", [3, 1])] (by decide)

lemma snapVectorFrom_length (f : ℚ → ℚ) (first last : ℕ) (v : List ℚ) :
    ∀ i, (snapVectorFrom f first last i v).length = v.length := by
  induction v with
  | nil => intro i; rfl
  | cons x xs ih =>
    intro i
    rw [snapVectorFrom]
    simp [ih]

lemma snapVectorFrom_getD (f : ℚ → ℚ) (first last : ℕ) (v : List ℚ) :
    ∀ i0 j, j < v.length →
      (snapVectorFrom f first last i0 v).getD j 0
        = if first ≤ i0 + j ∧ i0 + j < last then f (v.getD j 0) else v.getD j 0 := by
  induction v with
  | nil => intro i0 j hj; simp at hj
  | cons x xs ih =>
    intro i0 j hj
    rw [snapVectorFrom]
    cases j with
    | zero => simp [List.getD]
    | succ j =>
      have hj' : j < xs.length := by simpa using hj
      have harith : i0 + 1 + j = i0 + (j + 1) := by omega
      simpa [List.getD_cons_succ, harith] using ih (i0 + 1) j hj'

lemma snapVector_getD (f : ℚ → ℚ) (first last : ℕ) (v : List ℚ) (j : ℕ)
    (hj : j < v.length) :
    (snapVector f first last v).getD j 0
      = if first ≤ j ∧ j < last then f (v.getD j 0) else v.getD j 0 := by
  simpa using snapVectorFrom_getD f first last v 0 j hj

lemma snapVector_getD_ge (f : ℚ → ℚ) (first last : ℕ) (v : List ℚ) (j : ℕ)
    (hj : v.length ≤ j) :
    (snapVector f first last v).getD j 0 = v.getD j 0 := by
  rw [List.getD_eq_default, List.getD_eq_default]
  · exact hj
  · rw [snapVector, snapVectorFrom_length]
    exact hj

lemma snapPass_getD {nDiscrete : ℕ} (hpos : 0 < nDiscrete)
    (isDiscrete : String → Bool) (discreteValues : String → List ℚ)
    (first last : ℕ) (tp : List (String × List ℚ)) (j : ℕ) (hj : j < tp.length) :
    (snapPass nDiscrete isDiscrete discreteValues first last tp).getD j ("", [])
      = if isDiscrete (tp[j]).1 then
          ((tp[j]).1,
            snapVector (fun x => get_closest_value x (discreteValues (tp[j]).1))
              first last (tp[j]).2)
        else tp[j] := by
  rw [snapPass, if_pos hpos]
  simp [List.getD_eq_getElem?_getD, List.getElem?_map, List.getElem?_eq_getElem hj]

/-- C10. The discrete-snapping pass is a frame: with no discrete parameters it
is a no-op; it never changes the parameter keys; a parameter not flagged
discrete keeps its sequence exactly as generated; and even on discrete
parameters every index outside the calling worker's owned range
`[first_local, last_local)` keeps its value, only owned indices being replaced
by the snapped value. -/
theorem snapping_pass_frame_spec (nDiscrete : ℕ) (isDiscrete : String → Bool)
    (discreteValues : String → List ℚ) (first last : ℕ)
    (tp : List (String × List ℚ)) :
    (nDiscrete = 0 →
      snapPass nDiscrete isDiscrete discreteValues first last tp = tp) ∧
    ((snapPass nDiscrete isDiscrete discreteValues first last tp).map Prod.fst
      = tp.map Prod.fst) ∧
    (∀ j (hj : j < tp.length), isDiscrete (tp[j]).1 = false →
      (snapPass nDiscrete isDiscrete discreteValues first last tp).getD j ("", [])
        = tp[j]) ∧
    (∀ j (hj : j < tp.length) (i : ℕ), ¬(first ≤ i ∧ i < last) →
      ((snapPass nDiscrete isDiscrete discreteValues first last tp).getD j ("", [])).2.getD i 0
        = (tp[j]).2.getD i 0) ∧
    (∀ j (hj : j < tp.length) (i : ℕ), first ≤ i → i < last →
      isDiscrete (tp[j]).1 = true → 0 < nDiscrete → i < (tp[j]).2.length →
      ((snapPass nDiscrete isDiscrete discreteValues first last tp).getD j ("", [])).2.getD i 0
        = get_closest_value ((tp[j]).2.getD i 0) (discreteValues (tp[j]).1)) := by
  by_cases hpos : 0 < nDiscrete
  · refine ⟨fun h0 => absurd h0 (by omega), ?_, ?_, ?_, ?_⟩
    · rw [snapPass, if_pos hpos, List.map_map]
      refine List.map_congr_left ?_
      intro p _
      by_cases hd : isDiscrete p.1 <;> simp [hd]
    · intro j hj hd
      rw [snapPass_getD hpos _ _ _ _ tp j hj, if_neg (by simp [hd])]
    · intro j hj i hout
      rw [snapPass_getD hpos _ _ _ _ tp j hj]
      by_cases hd : isDiscrete (tp[j]).1
      · rw [if_pos hd]
        rcases lt_or_le i (tp[j]).2.length with hi | hi
        · rw [snapVector_getD _ _ _ _ _ hi, if_neg hout]
        · exact snapVector_getD_ge _ _ _ _ _ hi
      · rw [if_neg hd]
    · intro j hj i hfirst hlast hd _ hi
      rw [snapPass_getD hpos _ _ _ _ tp j hj, if_pos hd,
        snapVector_getD _ _ _ _ _ hi, if_pos ⟨hfirst, hlast⟩]
  · have h0 : nDiscrete = 0 := by omega
    have hid : snapPass nDiscrete isDiscrete discreteValues first last tp = tp := by
      rw [snapPass, if_neg hpos]
    refine ⟨fun _ => hid, by rw [hid], ?_, ?_, fun j hj i _ _ _ hcontra => absurd hcontra hpos⟩
    · intro j hj _
      rw [hid]
      simp [List.getD_eq_getElem?_getD, List.getElem?_eq_getElem hj]
    · intro j hj i _
      rw [hid]
      simp [List.getD_eq_getElem?_getD, List.getElem?_eq_getElem hj]

/-- Witness for C10 at a concrete two-parameter training set, `a` discrete with
list `[0, 10]`, `b` not discrete, owned range `[1, 2)`: the key list is kept,
`b` is untouched, the out-of-range entry of `a` is untouched, and the owned
entry of `a` is snapped. -/
theorem snapping_pass_frame_spec_witness :
    ((snapPass 1 (fun n => n == "a") (fun _ => [(0 : ℚ), 10]) 1 2
        [("a", [4, 7]), ("b", [4, 7])]).map Prod.fst
      = ([("a", [(4 : ℚ), 7]), ("b", [4, 7])] : List (String × List ℚ)).map Prod.fst) ∧
    ((snapPass 1 (fun n => n == "a") (fun _ => [(0 : ℚ), 10]) 1 2
        [("a", [4, 7]), ("b", [4, 7])]).getD 1 ("", [])
      = ("b", [4, 7])) ∧
    (((snapPass 1 (fun n => n == "a") (fun _ => [(0 : ℚ), 10]) 1 2
        [("a", [4, 7]), ("b", [4, 7])]).getD 0 ("", [])).2.getD 0 0 = 4) ∧
    (((snapPass 1 (fun n => n == "a") (fun _ => [(0 : ℚ), 10]) 1 2
        [("a", [4, 7]), ("b", [4, 7])]).getD 0 ("", [])).2.getD 1 0
      = get_closest_value 7 [(0 : ℚ), 10]) :=
  ⟨(snapping_pass_frame_spec 1 (fun n => n == "a") (fun _ => [(0 : ℚ), 10]) 1 2
      [("a", [4, 7]), ("b", [4, 7])]).2.1,
   (snapping_pass_frame_spec 1 (fun n => n == "a") (fun _ => [(0 : ℚ), 10]) 1 2
      [("a", [4, 7]), ("b", [4, 7])]).2.2.1 1 (by decide) (by decide),
   (snapping_pass_frame_spec 1 (fun n => n == "a") (fun _ => [(0 : ℚ), 10]) 1 2
      [("a", [4, 7]), ("b", [4, 7])]).2.2.2.1 0 (by decide) 0 (by decide),
   (snapping_pass_frame_spec 1 (fun n => n == "a") (fun _ => [(0 : ℚ), 10]) 1 2
      [("a", [4, 7]), ("b", [4, 7])]).2.2.2.2 0 (by decide) 1 (by decide) (by decide)
      (by decide) (by decide) (by decide)⟩

/-! ## Affine right-hand-side term count (`RBSystem::get_Q_f`) -/

/-- An attached RHS EIM system, abstracted to what `get_Q_f` consumes: its
current number of provided EIM functions (interpolation points), which can
change between training runs and is therefore queried each time. -/
structure RBEIMSystemModel where
  nFunctions : ℕ
  deriving DecidableEq

/-- The `RBSystem` state entering the `Q_f` count: the hand-attached
`theta_q_f` functors (stored pointers, modelled as ids) and the attached RHS
EIM systems (`F_EIM_systems_vector`). -/
structure RBSystemFState where
  theta_q_f_vector : List ℕ
  F_EIM_systems_vector : List RBEIMSystemModel
  deriving DecidableEq

/-- Modelled from the spec: `get_n_F_EIM_functions` (declared in the header,
its definition is not in src/) — the number of RHS EIM functions currently
provided by the attached EIM systems, queried dynamically from each system. -/
def get_n_F_EIM_functions (s : RBSystemFState) : ℕ :=
  (s.F_EIM_systems_vector.map RBEIMSystemModel.nFunctions).sum

/-- From the header:
`unsigned int get_Q_f() const { return theta_q_f_vector.size() + get_n_F_EIM_functions(); }`. -/
def get_Q_f (s : RBSystemFState) : ℕ :=
  s.theta_q_f_vector.length + get_n_F_EIM_functions s

/-- `attach_F_q` appends one hand-attached RHS functor. -/
def attach_F_q (s : RBSystemFState) (theta : ℕ) : RBSystemFState :=
  { s with theta_q_f_vector := s.theta_q_f_vector ++ [theta] }

/-- `attach_F_EIM_vectors` registers one further RHS EIM system. -/
def attach_F_EIM_vectors (s : RBSystemFState) (eim : RBEIMSystemModel) : RBSystemFState :=
  { s with F_EIM_systems_vector := s.F_EIM_systems_vector ++ [eim] }

/-- C9. At every state, `get_Q_f` is the number of hand-attached `theta_q_f`
functors plus the dynamically queried EIM-contributed RHS function count, not
a hard-coded total: attaching a functor raises it by one and attaching an EIM
system raises it by that system's current function count. -/
theorem q_f_count_spec (s : RBSystemFState) (theta : ℕ) (eim : RBEIMSystemModel) :
    get_Q_f s = s.theta_q_f_vector.length + get_n_F_EIM_functions s ∧
    get_Q_f (attach_F_q s theta) = get_Q_f s + 1 ∧
    get_Q_f (attach_F_EIM_vectors s eim) = get_Q_f s + eim.nFunctions := by
  refine ⟨rfl, ?_, ?_⟩ <;>
    simp [get_Q_f, attach_F_q, attach_F_EIM_vectors, get_n_F_EIM_functions] <;>
    omega
